import Mathlib

set_option maxRecDepth 100000

/-!
Verification development for the expression-graph kernel of libfive
(tree construction, simplification, remap/flatten, traversal, affine
collection, printing, serialisation) and for the B-rep `Region` class.

The repository copy under verification ships only the kernel test suite
(src/libfive/test/tree.cpp) and src/ao/include/ao/render/brep/region.hpp;
the kernel implementation itself (tree.hpp / data.hpp / opcode and the
serialiser) is not present.  All `Tree` definitions below are therefore
modelled from the specification, with the shipped test suite used as the
authority wherever the two disagree on concrete observable output
(byte streams, printed strings).  Region is translated directly from
region.hpp.
-/

namespace Libfive

/-! ## IEEE-754 single-precision constants as raw bit patterns

Modelled from the spec: node constants are `f32` values compared by raw
bit pattern (spec section 3, section 4.3).  A constant is represented here
as its 32-bit pattern (a `Nat` below `2 ^ 32`), and the arithmetic used by
constant folding decodes to an exact fraction, computes exactly, and
re-encodes with round-to-nearest-even.  Transcendental operations (sin, cos, ...) are left
unfolded by the model: their bit-exact results are libm-dependent and no
claim depends on them. -/

def f32SignBit (b : Nat) : Nat := b / 2 ^ 31 % 2
def f32Exp (b : Nat) : Nat := b / 2 ^ 23 % 2 ^ 8
def f32Frac (b : Nat) : Nat := b % 2 ^ 23

def f32IsNan (b : Nat) : Bool := f32Exp b == 255 && f32Frac b != 0
def f32IsInf (b : Nat) : Bool := f32Exp b == 255 && f32Frac b == 0

/-! Exact rational arithmetic on raw numerator-denominator pairs.  The
denominator is positive by construction; fractions are not normalised, so
every operation is a plain structural computation that the kernel can
evaluate.  `Frac` values only carry the exact intermediate results of the
IEEE-754 decode / compute / re-encode cycle. -/

abbrev Frac := Int × Nat

def fqAdd (a b : Frac) : Frac := (a.1 * b.2 + b.1 * a.2, a.2 * b.2)
def fqSub (a b : Frac) : Frac := (a.1 * b.2 - b.1 * a.2, a.2 * b.2)
def fqMul (a b : Frac) : Frac := (a.1 * b.1, a.2 * b.2)
def fqNeg (a : Frac) : Frac := (-a.1, a.2)
def fqAbs (a : Frac) : Frac := ((a.1.natAbs : Int), a.2)
def fqDiv (a b : Frac) : Frac :=
  if b.1 < 0 then (-(a.1 * b.2), a.2 * b.1.natAbs) else (a.1 * b.2, a.2 * b.1.natAbs)
def fqEq (a b : Frac) : Bool := a.1 * b.2 == b.1 * a.2
def fqLe (a b : Frac) : Bool := a.1 * b.2 ≤ b.1 * a.2
def fqLt (a b : Frac) : Bool := a.1 * b.2 < b.1 * a.2

/-- Two to an integer power, as a fraction. -/
def fqPow2 (e : Int) : Frac :=
  if 0 ≤ e then ((2 ^ e.toNat : Nat), 1) else (1, 2 ^ (-e).toNat)

/-- Decode a finite f32 bit pattern to an exact fraction; `none` for
infinities and NaNs. -/
def f32ToRat (b : Nat) : Option Frac :=
  if f32Exp b == 255 then none
  else
    let mag : Frac :=
      if f32Exp b == 0 then ((f32Frac b : Int), 2 ^ 149)
      else (((2 ^ 23 + f32Frac b) * 2 ^ f32Exp b : Nat), 2 ^ 150)
    some (if f32SignBit b == 1 then fqNeg mag else mag)

/-- Round a nonnegative fraction to the nearest integer, ties to even. -/
def ratRoundNE (q : Frac) : Nat :=
  let n : Nat := q.1.toNat / q.2
  let r : Nat := q.1.toNat - n * q.2
  if 2 * r > q.2 then n + 1
  else if 2 * r < q.2 then n
  else if n % 2 == 0 then n else n + 1

/-- Fuel-driven floor base-2 logarithm (structural so that the kernel can
evaluate it; the fuel argument is an upper bound on the result). -/
def nlog2Aux : Nat → Nat → Nat
  | 0, _ => 0
  | fuel + 1, n => if n < 2 then 0 else nlog2Aux fuel (n / 2) + 1

def nlog2 (n : Nat) : Nat := nlog2Aux n n

/-- Floor of the base-2 logarithm of a positive fraction. -/
def ratLog2 (q : Frac) : Int :=
  let e0 : Int := (nlog2 q.1.toNat : Int) - (nlog2 q.2 : Int)
  if fqLt q (fqPow2 e0) then e0 - 1 else e0

def f32PosInf : Nat := 0x7F800000
def f32NegInf : Nat := 0xFF800000
/-- The quiet NaN produced by the NAN macro and by nanf on x86. -/
def f32QNan : Nat := 0x7FC00000

/-- Encode an exact fraction as the nearest f32 bit pattern
(round-to-nearest-even, overflow to infinity). -/
def f32OfRat (q : Frac) : Nat :=
  if q.1 == 0 then 0
  else
    let s : Nat := if q.1 < 0 then 2 ^ 31 else 0
    let a : Frac := fqAbs q
    let e : Int := ratLog2 a
    if -126 ≤ e then
      let m : Nat := ratRoundNE (fqMul a (fqPow2 (23 - e)))
      let m2 : Nat := if m = 2 ^ 24 then 2 ^ 23 else m
      let e2 : Int := if m = 2 ^ 24 then e + 1 else e
      if 127 < e2 then s + f32PosInf
      else s + (e2 + 127).toNat * 2 ^ 23 + (m2 - 2 ^ 23)
    else
      let m : Nat := ratRoundNE (fqMul a (fqPow2 149))
      if 2 ^ 23 ≤ m then s + 2 ^ 23 else s + m

/-- Encode an integer as an f32 bit pattern. -/
def f32OfInt (k : Int) : Nat := f32OfRat (k, 1)

/-- True when the bit pattern denotes a (positive or negative) zero. -/
def f32IsZero (b : Nat) : Bool := b == 0 || b == 2 ^ 31

def f32One : Nat := f32OfInt 1
def f32NegOne : Nat := f32OfInt (-1)

/-- Lift an exact binary operation to bit patterns, propagating NaN; used
for constant folding of ADD, SUB and MUL.  Infinite operands are folded to
NaN by the model; no claim exercises them. -/
def f32Arith (f : Frac → Frac → Frac) (a b : Nat) : Nat :=
  match f32ToRat a, f32ToRat b with
  | some x, some y => f32OfRat (f x y)
  | _, _ => f32QNan

def f32Add (a b : Nat) : Nat := f32Arith fqAdd a b
def f32Sub (a b : Nat) : Nat := f32Arith fqSub a b
def f32Mul (a b : Nat) : Nat := f32Arith fqMul a b

/-- IEEE division: finite cases computed exactly then rounded, x / 0 gives
a signed infinity for x nonzero and NaN for 0 / 0. -/
def f32Div (a b : Nat) : Nat :=
  match f32ToRat a, f32ToRat b with
  | some x, some y =>
      if y.1 == 0 then
        if x.1 == 0 then f32QNan
        else if (x.1 < 0) = (f32SignBit b == 1) then f32PosInf else f32NegInf
      else f32OfRat (fqDiv x y)
  | _, _ => f32QNan

/-- Negation flips the sign bit (exact in IEEE-754). -/
def f32Neg (b : Nat) : Nat := if f32SignBit b == 1 then b - 2 ^ 31 else b + 2 ^ 31

/-- Absolute value clears the sign bit. -/
def f32Abs (b : Nat) : Nat := if f32SignBit b == 1 then b - 2 ^ 31 else b

/-- Sort key used by affine collection: the decoded value for finite
patterns, with infinities pushed to the extremes.  NaN keys are given an
arbitrary key; no claim sorts NaN coefficients. -/
def f32Key (b : Nat) : Frac :=
  match f32ToRat b with
  | some q => q
  | none =>
      if f32IsNan b then (0, 1)
      else if f32SignBit b == 1 then (-(2 ^ 200 : Int), 1) else ((2 ^ 200 : Int), 1)

def f32LeB (a b : Nat) : Bool := fqLe (f32Key a) (f32Key b)
def f32LtB (a b : Nat) : Bool := fqLt (f32Key a) (f32Key b)

/-! ## Opcodes and node variants

Modelled from the spec (section 3, section 4.1): the closed opcode set with
its unary and binary operator families. -/

inductive UnOp where
  | NEG | ABS | SQUARE | SQRT | SIN | COS | TAN
  | ASIN | ACOS | ATAN | EXP | LOG | RECIP
deriving DecidableEq, Repr

inductive BinOp where
  | ADD | SUB | MUL | DIV | MIN | MAX | POW | NTH_ROOT | ATAN2 | MOD | COMPARE
deriving DecidableEq, Repr

/-- Modelled from the spec: the tagged node variants (section 3).  The
spec asserts structural uniqueness for all deduplicable nodes (invariant 1),
so handle identity coincides with structural equality of this inductive;
VarFree and Oracle carry the fresh identity they are created with. -/
inductive TreeData where
  | Constant (bits : Nat)
  | VarX | VarY | VarZ
  | VarFree (id : Nat)
  | Unary (op : UnOp) (child : TreeData)
  | Binary (op : BinOp) (lhs rhs : TreeData)
  | Remap (body x y z : TreeData)
  | ApplyConstVars (body : TreeData)
  | Oracle (id : Nat)
deriving DecidableEq, Repr

namespace TreeData

def isConst : TreeData → Bool
  | Constant _ => true
  | _ => false

/-- The bit pattern of a constant node (0 otherwise). -/
def constBits : TreeData → Nat
  | Constant b => b
  | _ => 0

/-- True when the node is a constant whose decoded value is the integer
`k` exactly. -/
def isConstVal (t : TreeData) (k : Int) : Bool :=
  match t with
  | Constant b =>
      match f32ToRat b with
      | some q => fqEq q (k, 1)
      | none => false
  | _ => false

end TreeData

open TreeData

/-! ## Smart constructors (C4)

Modelled from the spec (section 4.4): identity and folding rules applied
once, in order, before interning; all equality tests are handle identity,
which under the structural-uniqueness invariant is structural equality.
The symmetric rule (-x) + y = y - x is included alongside x + (-y) = x - y:
the shipped collect_affine tests force it (a sum whose first term carries a
negative coefficient prints as a subtraction). -/

def constant (k : Int) : TreeData := Constant (f32OfInt k)

def negT : TreeData → TreeData
  | Unary .NEG c => c
  | Constant b => Constant (f32Neg b)
  | t => Unary .NEG t

def subT : TreeData → TreeData → TreeData
  | l, r =>
    if r.isConstVal 0 then l
    else if l.isConstVal 0 then negT r
    else match l, r with
      | Constant a, Constant b => Constant (f32Sub a b)
      | l, r => Binary .SUB l r

def addT : TreeData → TreeData → TreeData
  | l, r =>
    if l.isConstVal 0 then r
    else if r.isConstVal 0 then l
    else match l, r with
      | l, Unary .NEG c => subT l c
      | Unary .NEG c, r => subT r c
      | Constant a, Constant b => Constant (f32Add a b)
      | l, r => Binary .ADD l r

def mulT : TreeData → TreeData → TreeData
  | l, r =>
    if l.isConstVal 1 then r
    else if r.isConstVal 1 then l
    else if l.isConstVal 0 || r.isConstVal 0 then Constant 0
    else if l.isConstVal (-1) then negT r
    else if r.isConstVal (-1) then negT l
    else match l, r with
      | Constant a, Constant b => Constant (f32Mul a b)
      | l, r => Binary .MUL l r

def divT : TreeData → TreeData → TreeData
  | Constant a, Constant b => Constant (f32Div a b)
  | l, r => Binary .DIV l r

def minT (l r : TreeData) : TreeData :=
  if l = r then l
  else match l, r with
    | Constant a, Constant b =>
        if f32IsNan a then Constant b
        else if f32IsNan b then Constant a
        else if f32LeB a b then Constant a else Constant b
    | l, r => Binary .MIN l r

def maxT (l r : TreeData) : TreeData :=
  if l = r then l
  else match l, r with
    | Constant a, Constant b =>
        if f32IsNan a then Constant b
        else if f32IsNan b then Constant a
        else if f32LeB a b then Constant b else Constant a
    | l, r => Binary .MAX l r

def powT (l r : TreeData) : TreeData :=
  if r.isConstVal 1 then l else Binary .POW l r

def nthRootT (l r : TreeData) : TreeData :=
  if r.isConstVal 1 then l else Binary .NTH_ROOT l r

def absT : TreeData → TreeData
  | Unary .ABS c => Unary .ABS c
  | Constant b => Constant (f32Abs b)
  | t => Unary .ABS t

def squareT : TreeData → TreeData
  | Constant b => Constant (f32Mul b b)
  | t => Unary .SQUARE t

/-- Unary dispatcher.  Transcendental opcodes are built without folding:
their libm results are not bit-exactly specified and no claim uses them. -/
def unary (op : UnOp) (c : TreeData) : TreeData :=
  match op with
  | .NEG => negT c
  | .ABS => absT c
  | .SQUARE => squareT c
  | op => Unary op c

/-- Binary dispatcher through the simplifier rules of section 4.4.
ATAN2, MOD and COMPARE carry no identities and are left unfolded. -/
def binary (op : BinOp) (l r : TreeData) : TreeData :=
  match op with
  | .ADD => addT l r
  | .SUB => subT l r
  | .MUL => mulT l r
  | .DIV => divT l r
  | .MIN => minT l r
  | .MAX => maxT l r
  | .POW => powT l r
  | .NTH_ROOT => nthRootT l r
  | op => Binary op l r

/-! ## Flags, remap and flatten (C6 of the spec overview)

Modelled from the spec (sections 3 and 4.6): HAS_REMAP is the exact union
of the children flags plus the node contribution; remap builds a wrapper
without traversing the body; flatten early-outs on remap-free nodes and
otherwise rebuilds through the smart constructors, substituting the axis
leaves of a remap body with the flattened replacements (inner remaps are
flattened before the outer substitution is applied). -/

def hasRemap : TreeData → Bool
  | Remap _ _ _ _ => true
  | Unary _ c => hasRemap c
  | Binary _ l r => hasRemap l || hasRemap r
  | ApplyConstVars b => hasRemap b
  | _ => false

/-- Modelled from the spec: remap is O(1) and returns the wrapper node. -/
def remap (body x y z : TreeData) : TreeData := Remap body x y z

/-- Modelled from the spec: substitution of the axis leaves in a
remap-free body, rebuilding interior nodes through the smart constructors.
The Remap case is unreachable from flatten (bodies are flattened first)
and is rebuilt structurally to keep the function total. -/
def substAxes (b x y z : TreeData) : TreeData :=
  match b with
  | VarX => x
  | VarY => y
  | VarZ => z
  | Unary op c => unary op (substAxes c x y z)
  | Binary op l r => binary op (substAxes l x y z) (substAxes r x y z)
  | ApplyConstVars c => ApplyConstVars (substAxes c x y z)
  | Remap c p q r =>
      Remap (substAxes c x y z) (substAxes p x y z) (substAxes q x y z) (substAxes r x y z)
  | b => b

def flatten : TreeData → TreeData
  | Unary op c =>
      if hasRemap (Unary op c) then unary op (flatten c) else Unary op c
  | Binary op l r =>
      if hasRemap (Binary op l r) then binary op (flatten l) (flatten r)
      else Binary op l r
  | Remap b x y z => substAxes (flatten b) (flatten x) (flatten y) (flatten z)
  | ApplyConstVars b =>
      if hasRemap (ApplyConstVars b) then ApplyConstVars (flatten b)
      else ApplyConstVars b
  | t => t

/-! ## Traversal (C5 of the spec overview) and the serialisation order

Modelled from the spec (section 4.5): walk yields a deterministic
post-order sequence of the distinct reachable records, children before
parents, lhs before rhs, a shared record appearing at its first (leftmost)
occurrence.  The serialiser uses the same post-order scheme but visits the
deeper child of a binary node first (lhs first on equal heights): the byte
streams asserted by the shipped tests (tree.cpp, Tree::serialize) pin this
order, e.g. min(X, Y + X) is emitted as Y, X, ADD, MIN. -/

def kids : TreeData → List TreeData
  | Unary _ c => [c]
  | Binary _ l r => [l, r]
  | Remap b x y z => [b, x, y, z]
  | ApplyConstVars b => [b]
  | _ => []

def height : TreeData → Nat
  | Unary _ c => height c + 1
  | Binary _ l r => max (height l) (height r) + 1
  | Remap b x y z => max (max (height b) (height x)) (max (height y) (height z)) + 1
  | ApplyConstVars b => height b + 1
  | _ => 0

/-- Post-order accumulation of distinct reachable nodes onto `seen`.
With `u = false` children are visited lhs-first (walk); with `u = true`
a binary node visits its deeper child first (serialisation order). -/
def postAux (u : Bool) : TreeData → List TreeData → List TreeData
  | t@(Unary _ c), seen =>
      if t ∈ seen then seen else postAux u c seen ++ [t]
  | t@(Binary _ l r), seen =>
      if t ∈ seen then seen
      else if u && decide (height l < height r)
        then postAux u l (postAux u r seen) ++ [t]
        else postAux u r (postAux u l seen) ++ [t]
  | t@(Remap b x y z), seen =>
      if t ∈ seen then seen
      else postAux u z (postAux u y (postAux u x (postAux u b seen))) ++ [t]
  | t@(ApplyConstVars b), seen =>
      if t ∈ seen then seen else postAux u b seen ++ [t]
  | t@(Constant _), seen => if t ∈ seen then seen else seen ++ [t]
  | t@VarX, seen => if t ∈ seen then seen else seen ++ [t]
  | t@VarY, seen => if t ∈ seen then seen else seen ++ [t]
  | t@VarZ, seen => if t ∈ seen then seen else seen ++ [t]
  | t@(VarFree _), seen => if t ∈ seen then seen else seen ++ [t]
  | t@(Oracle _), seen => if t ∈ seen then seen else seen ++ [t]

def walk (t : TreeData) : List TreeData := postAux false t []

def size (t : TreeData) : Nat := (walk t).length

/-- Emission order of the serialiser. -/
def serialOrder (t : TreeData) : List TreeData := postAux true t []

/-- Reachability along child edges (reflexive-transitive). -/
inductive Reach : TreeData → TreeData → Prop
  | refl (t : TreeData) : Reach t t
  | step {t c a : TreeData} : c ∈ kids t → Reach c a → Reach t a

/-- Index of the first occurrence of a node in a list (length if absent). -/
def idxOf : List TreeData → TreeData → Nat
  | [], _ => 0
  | b :: w, a => if b = a then 0 else idxOf w a + 1

/-- Child-closure with ordering: every node in the list has all its
children in the list at strictly smaller first-occurrence indices. -/
def ClosedIdx (w : List TreeData) : Prop :=
  ∀ n ∈ w, ∀ c ∈ kids n, c ∈ w ∧ idxOf w c < idxOf w n

/-! ## Structural canonicalisation (unique)

Modelled from the spec (section 4.7): post-order rebuild of every node
through the smart constructors.  Under the structural-uniqueness invariant
the re-interning itself is implicit in structural equality. -/

def uniqueT : TreeData → TreeData
  | Unary op c => unary op (uniqueT c)
  | Binary op l r => binary op (uniqueT l) (uniqueT r)
  | Remap b x y z => Remap (uniqueT b) (uniqueT x) (uniqueT y) (uniqueT z)
  | ApplyConstVars b => ApplyConstVars (uniqueT b)
  | t => t

/-! ## Serialisation (C8 of the spec overview)

Modelled from the spec (section 4.8) with the byte-level layout pinned by
the shipped tests (tree.cpp, Tree::serialize): magic byte T; the two
metadata strings, each an opening and a closing quote byte when empty;
one record per node in serialisation order (opcode byte, then payload);
terminator FF FF.  A binary record carries the rhs index first and the
lhs index second, 4-byte little-endian each, 0-based into the previously
emitted records; a unary record carries its child index.  The spec fixes
no numeric opcode byte values; the model assigns them in enumeration
order.  Oracle payloads are delegated to an opaque callback in the code
and are modelled as empty; no claim exercises them. -/

def unOpByte : UnOp → Nat
  | .SQUARE => 7 | .SQRT => 8 | .NEG => 9 | .SIN => 10 | .COS => 11
  | .TAN => 12 | .ASIN => 13 | .ACOS => 14 | .ATAN => 15 | .EXP => 16
  | .ABS => 17 | .LOG => 18 | .RECIP => 19

def binOpByte : BinOp → Nat
  | .ADD => 20 | .MUL => 21 | .MIN => 22 | .MAX => 23 | .SUB => 24
  | .DIV => 25 | .ATAN2 => 26 | .POW => 27 | .NTH_ROOT => 28
  | .MOD => 29 | .COMPARE => 31

def opByte : TreeData → Nat
  | Constant _ => 1
  | VarX => 2
  | VarY => 3
  | VarZ => 4
  | VarFree _ => 5
  | ApplyConstVars _ => 6
  | Unary op _ => unOpByte op
  | Binary op _ _ => binOpByte op
  | Remap _ _ _ _ => 33
  | Oracle _ => 32

/-- Four little-endian bytes of a 32-bit value. -/
def le32 (n : Nat) : List Nat :=
  [n % 256, n / 256 % 256, n / 65536 % 256, n / 16777216 % 256]

/-- Record payload for one node, given the emission order `w`. -/
def recordBytes (w : List TreeData) (t : TreeData) : List Nat :=
  opByte t ::
    match t with
    | Constant b => le32 b
    | Unary _ c => le32 (idxOf w c)
    | Binary _ l r => le32 (idxOf w r) ++ le32 (idxOf w l)
    | Remap b x y z => le32 (idxOf w b) ++ le32 (idxOf w x) ++ le32 (idxOf w y) ++ le32 (idxOf w z)
    | ApplyConstVars b => le32 (idxOf w b)
    | _ => []

/-- Serialise a tree with empty metadata strings. -/
def serialise (t : TreeData) : List Nat :=
  let w := serialOrder t
  84 :: 34 :: 34 :: 34 :: 34 :: (w.flatMap (recordBytes w)) ++ [255, 255]

/-! ## Printer (C9 of the spec overview)

Modelled from the spec (section 4.9): s-expression dump; chains of the
same binary operator collapse into a variadic form; constants print with
minimal precision (the model prints integral values exactly and leaves a
placeholder for other magnitudes, which no claim exercises). -/

def unSym : UnOp → String
  | .NEG => "-" | .ABS => "abs" | .SQUARE => "square" | .SQRT => "sqrt"
  | .SIN => "sin" | .COS => "cos" | .TAN => "tan" | .ASIN => "asin"
  | .ACOS => "acos" | .ATAN => "atan" | .EXP => "exp" | .LOG => "log"
  | .RECIP => "recip"

def binSym : BinOp → String
  | .ADD => "+" | .SUB => "-" | .MUL => "*" | .DIV => "/"
  | .MIN => "min" | .MAX => "max" | .POW => "pow" | .NTH_ROOT => "nth-root"
  | .ATAN2 => "atan2" | .MOD => "mod" | .COMPARE => "compare"

def digitStr (d : Nat) : String :=
  match d with
  | 0 => "0" | 1 => "1" | 2 => "2" | 3 => "3" | 4 => "4"
  | 5 => "5" | 6 => "6" | 7 => "7" | 8 => "8" | _ => "9"

def natStrAux : Nat → Nat → String
  | 0, _ => ""
  | fuel + 1, n => if n < 10 then digitStr n else natStrAux fuel (n / 10) ++ digitStr (n % 10)

def natStr (n : Nat) : String := natStrAux (n + 1) n

def intStr (i : Int) : String := if i < 0 then "-" ++ natStr i.natAbs else natStr i.toNat

/-- Constants print with minimal precision; the model prints integral
values exactly and leaves a placeholder for other magnitudes, which no
claim exercises. -/
def fmtConst (b : Nat) : String :=
  match f32ToRat b with
  | some q => if q.1.emod q.2 == 0 then intStr (q.1.ediv q.2) else "#frac"
  | none => if f32IsNan b then "nan" else if f32SignBit b == 1 then "-inf" else "inf"

/-- Operand spine of a chain of the given binary operator: the operands
the variadic printed form lists, in print order. -/
def chainArgs (op : BinOp) : TreeData → List TreeData
  | Binary op2 l r =>
      if op2 = op then chainArgs op l ++ chainArgs op r
      else [Binary op2 l r]
  | t => [t]

def sexpF : Nat → TreeData → String
  | _, Constant b => fmtConst b
  | _, VarX => "x"
  | _, VarY => "y"
  | _, VarZ => "z"
  | _, VarFree _ => "var-free"
  | _, Oracle _ => "\x27Oracle"
  | 0, _ => ""
  | fuel + 1, Unary op c => "(" ++ unSym op ++ " " ++ sexpF fuel c ++ ")"
  | fuel + 1, Binary op l r =>
      "(" ++ binSym op ++ " " ++
        String.intercalate " " ((chainArgs op l ++ chainArgs op r).map (sexpF fuel)) ++ ")"
  | fuel + 1, Remap b x y z =>
      "(remap " ++ sexpF fuel b ++ " " ++ sexpF fuel x ++ " " ++ sexpF fuel y ++ " " ++
        sexpF fuel z ++ ")"
  | fuel + 1, ApplyConstVars b => "(const-var " ++ sexpF fuel b ++ ")"

/-- The s-expression dump.  The fuel argument of `sexpF` only serves to
make the recursion structural: `height t` bounds the nesting depth, and
every operand produced by `chainArgs` has strictly smaller height than
the node itself, so the fuel never runs out. -/
def sexp (t : TreeData) : String := sexpF (height t + 1) t

/-! ## Affine collection (C7 of the spec overview)

Modelled from the spec (section 4.7): an affine accumulator maps atoms
to f32 coefficients, with a separate constant term; collection descends
through ADD, SUB, unary NEG and multiplication or division by a constant;
every other operator terminates descent, its subtrees being recursively
collected and the rebuilt node used as an atom.  Atoms with identical
handle identity (structural equality here) merge additively; zero
coefficients are dropped.  The output is a balanced sum (the shipped test
X + 2Y + 3cos X + 4cos Y asserts the two halves explicitly) over the
terms sorted by ascending coefficient, the constant keyed by its own
value: the shipped tests pin this order, e.g. max(Z - 10, -Z) prints its
left operand as a sum with the constant first. -/

abbrev AffMap := List (TreeData × Nat)

/-- Coefficient of an atom in the accumulator (+0.0 when absent). -/
def coeffOf (m : AffMap) (a : TreeData) : Nat :=
  match m with
  | [] => 0
  | (b, c) :: rest => if b = a then c else coeffOf rest a

/-- Add `c` to the coefficient of `a`, inserting the atom if new. -/
def addEntry (m : AffMap) (a : TreeData) (c : Nat) : AffMap :=
  match m with
  | [] => [(a, c)]
  | (b, cb) :: rest =>
      if b = a then (b, f32Add cb c) :: rest
      else (b, cb) :: addEntry rest a c

def mergeMap (m : AffMap) : AffMap → AffMap
  | [] => m
  | (a, c) :: rest => mergeMap (addEntry m a c) rest

def scaleMap (k : Nat) (m : AffMap) : AffMap := m.map fun e => (e.1, f32Mul e.2 k)

def negMap (m : AffMap) : AffMap := m.map fun e => (e.1, f32Neg e.2)

/-- Balanced reduction of a list of terms into a sum built through the
smart constructors; the empty sum is the constant +0.0. -/
def reduceBalF : Nat → List TreeData → TreeData
  | _, [] => Constant 0
  | _, [t] => t
  | 0, t :: _ => t
  | fuel + 1, a :: b :: rest =>
      addT (reduceBalF fuel ((a :: b :: rest).take ((rest.length + 2) / 2)))
           (reduceBalF fuel ((a :: b :: rest).drop ((rest.length + 2) / 2)))

/-- Balanced reduction: the list is split in half and the halves are
summed through the smart constructors (the fuel argument makes the
recursion structural and is never exhausted when it starts at the list
length). -/
def reduceBal (l : List TreeData) : TreeData := reduceBalF l.length l

/-- Keyed term list of an accumulator: dropped zero coefficients, each
atom keyed by its coefficient, the nonzero constant keyed by its value. -/
def affineEntries (m : AffMap) (c : Nat) : List (Nat × TreeData) :=
  ((m.filter fun e => !f32IsZero e.2).map fun e => (e.2, mulT e.1 (Constant e.2))) ++
    (if f32IsZero c then [] else [(c, Constant c)])

/-- Stable insertion of a keyed term: entries with strictly smaller keys
stay in front, and the new entry goes before every entry with an equal or
larger key (the new entry always comes from earlier in the original
list). -/
def insEntry (x : Nat × TreeData) : List (Nat × TreeData) → List (Nat × TreeData)
  | [] => [x]
  | y :: ys => if f32LtB y.1 x.1 then y :: insEntry x ys else x :: y :: ys

/-- Stable sort of the keyed terms by ascending key. -/
def sortEntries : List (Nat × TreeData) → List (Nat × TreeData)
  | [] => []
  | x :: xs => insEntry x (sortEntries xs)

/-- Rebuild the canonical affine-sum tree from an accumulator. -/
def buildAffine (m : AffMap) (c : Nat) : TreeData :=
  reduceBal ((sortEntries (affineEntries m c)).map Prod.snd)

/-- Affine descent: returns the atom-coefficient map and the constant. -/
def collectTerms : TreeData → AffMap × Nat
  | Constant b => ([], b)
  | Binary .ADD l r =>
      let (ml, cl) := collectTerms l
      let (mr, cr) := collectTerms r
      (mergeMap ml mr, f32Add cl cr)
  | Binary .SUB l r =>
      let (ml, cl) := collectTerms l
      let (mr, cr) := collectTerms r
      (mergeMap ml (negMap mr), f32Add cl (f32Neg cr))
  | Unary .NEG c =>
      let (m, k) := collectTerms c
      (negMap m, f32Neg k)
  | Binary .MUL l r =>
      match l, r with
      | Constant k, r =>
          let (m, c) := collectTerms r
          (scaleMap k m, f32Mul c k)
      | l, Constant k =>
          let (m, c) := collectTerms l
          (scaleMap k m, f32Mul c k)
      | l, r =>
          ([(mulT (buildAffine (collectTerms l).1 (collectTerms l).2)
                  (buildAffine (collectTerms r).1 (collectTerms r).2), f32One)], 0)
  | Binary .DIV l r =>
      match r with
      | Constant k =>
          let (m, c) := collectTerms l
          (scaleMap (f32Div f32One k) m, f32Mul c (f32Div f32One k))
      | r =>
          ([(divT (buildAffine (collectTerms l).1 (collectTerms l).2)
                  (buildAffine (collectTerms r).1 (collectTerms r).2), f32One)], 0)
  | Unary op c =>
      ([(unary op (buildAffine (collectTerms c).1 (collectTerms c).2), f32One)], 0)
  | Binary op l r =>
      ([(binary op (buildAffine (collectTerms l).1 (collectTerms l).2)
                   (buildAffine (collectTerms r).1 (collectTerms r).2), f32One)], 0)
  | ApplyConstVars b =>
      ([(ApplyConstVars (buildAffine (collectTerms b).1 (collectTerms b).2), f32One)], 0)
  | Remap b x y z => ([(Remap b x y z, f32One)], 0)
  | t => ([(t, f32One)], 0)

def collect_affine (t : TreeData) : TreeData :=
  buildAffine (collectTerms t).1 (collectTerms t).2

/-! ## Reference counting (C2 and C3 of the spec overview)

Modelled from the spec (sections 3, 4.2 and 4.3): node records carry an
atomic reference count; a handle copy increments it, a drop decrements it,
and the hash-cons table holds one additional count for its own key, the
entry being removed when the live handles reach zero.  The model is a
transition system over the per-record book-keeping: `live` counts the live
handles of each record, `tabled` whether the hash-cons table still holds
its key, `refcount` the stored count.  Interned construction either
creates a record (count 2: the fresh handle plus the table key) or hands
out one more handle to the existing record; `var()` records bypass the
table and start at count 1. -/

structure RCState where
  live : Nat → Nat
  tabled : Nat → Bool
  refcount : Nat → Nat

def rcInit : RCState := ⟨fun _ => 0, fun _ => false, fun _ => 0⟩

/-- First interned construction of a record: one live handle, one table
key, count 2. -/
def rcMakeNew (n : Nat) (s : RCState) : RCState :=
  ⟨Function.update s.live n 1, Function.update s.tabled n true,
   Function.update s.refcount n 2⟩

/-- Interned construction hitting the existing table entry: one more
live handle. -/
def rcMakeHit (n : Nat) (s : RCState) : RCState :=
  ⟨Function.update s.live n (s.live n + 1), s.tabled,
   Function.update s.refcount n (s.refcount n + 1)⟩

/-- Construction of an un-interned record (var or oracle): one live
handle, no table key, count 1. -/
def rcMakeFresh (n : Nat) (s : RCState) : RCState :=
  ⟨Function.update s.live n 1, s.tabled, Function.update s.refcount n 1⟩

/-- Handle copy. -/
def rcClone (n : Nat) (s : RCState) : RCState :=
  ⟨Function.update s.live n (s.live n + 1), s.tabled,
   Function.update s.refcount n (s.refcount n + 1)⟩

/-- Handle drop: the count falls by one; when the last live handle goes,
the table entry is removed as well and the count reaches zero. -/
def rcDrop (n : Nat) (s : RCState) : RCState :=
  if s.live n = 1 then
    ⟨Function.update s.live n 0, Function.update s.tabled n false,
     Function.update s.refcount n 0⟩
  else
    ⟨Function.update s.live n (s.live n - 1), s.tabled,
     Function.update s.refcount n (s.refcount n - 1)⟩

inductive RCStep : RCState → RCState → Prop
  | makeNew {s n} : s.live n = 0 → s.tabled n = false → RCStep s (rcMakeNew n s)
  | makeHit {s n} : s.tabled n = true → RCStep s (rcMakeHit n s)
  | makeFresh {s n} : s.live n = 0 → s.tabled n = false → RCStep s (rcMakeFresh n s)
  | clone {s n} : 1 ≤ s.live n → RCStep s (rcClone n s)
  | drop {s n} : 1 ≤ s.live n → RCStep s (rcDrop n s)

def RCReachable (s : RCState) : Prop := Relation.ReflTransGen RCStep rcInit s

/-- The reference-count invariant: the stored count is exactly the number
of live handles plus one count for the table key. -/
def RCInv (s : RCState) : Prop :=
  ∀ n, s.refcount n = s.live n + (if s.tabled n then 1 else 0)

/-! ## Region (translated from src/ao/include/ao/render/brep/region.hpp)

The scalar type float is abstracted to the exact rationals: the bound
arithmetic in subdivide is carried over verbatim, and the claim under
check concerns the perpendicular coordinates, which are only ever set
from the literal 0.  `Pt` is a function from axis index to scalar, `Perp`
the same over the remaining 3 - N axes. -/

structure Region (N : Nat) where
  lower : Fin N → ℚ
  upper : Fin N → ℚ
  perp : Fin (3 - N) → ℚ

namespace Region

/-- The two-argument constructor Region(lower, upper): perp(0). -/
def ofBounds {N : Nat} (lower upper : Fin N → ℚ) : Region N :=
  ⟨lower, upper, fun _ => 0⟩

/-- The three-argument constructor Region(lower, upper, p). -/
def ofBoundsPerp {N : Nat} (lower upper : Fin N → ℚ) (p : Fin (3 - N) → ℚ) : Region N :=
  ⟨lower, upper, p⟩

/-- The default constructor: zero bounds (perp is the member default,
also zero). -/
def empty {N : Nat} : Region N := ⟨fun _ => 0, fun _ => 0, fun _ => 0⟩

/-- Region::subdivide, translated clause by clause: middle is
upper / 2 + lower / 2; subregion i uses for axis j the middle as lower
bound when bit j of i is set (a.select(middle, lower)) and the middle as
upper bound otherwise (a.select(upper, middle)); each subregion is built
with the two-argument constructor. -/
def subdivide {N : Nat} (r : Region N) : List (Region N) :=
  (List.range (2 ^ N)).map fun i =>
    let middle : Fin N → ℚ := fun j => r.upper j / 2 + r.lower j / 2
    ofBounds
      (fun j => if i / 2 ^ (j : Nat) % 2 = 1 then middle j else r.lower j)
      (fun j => if i / 2 ^ (j : Nat) % 2 = 1 then r.upper j else middle j)

end Region

/-! ## Concrete trees exercised by the shipped test suite -/

/-- min(X, Y): the Basic serialisation test. -/
def exMinXY : TreeData := minT VarX VarY

/-- min(X, Y + X): the With-local-references serialisation test. -/
def exSerialLocal : TreeData := minT VarX (addT VarY VarX)

/-- (X + 5).remap(3, X, X): the Collapsing-while-remapping test. -/
def exFold : TreeData := remap (addT VarX (constant 5)) (constant 3) VarX VarX

/-- min(min(X, Y), min(Z, 1)): the Fully-branching walk test. -/
def exWalkFull : TreeData := minT (minT VarX VarY) (minT VarZ (constant 1))

/-- min(min(X, Y), min(Z, X)): the Self-intersecting walk test. -/
def exWalkShared : TreeData := minT (minT VarX VarY) (minT VarZ VarX)

/-- (2X + Y) + (2X + Y): the coefficient-merging collect_affine test. -/
def exAffineMerge : TreeData :=
  addT (addT (mulT (constant 2) VarX) VarY) (addT (mulT (constant 2) VarX) VarY)

/-- max(Z - 10, -Z): the collect_affine test whose left operand is an
affine sum with a nonzero constant term. -/
def exAffineMax : TreeData := maxT (subT VarZ (constant 10)) (negT VarZ)

/-- (X + 2Y + 7) + 3 cos(sin(X + 2Y + 7)): the collect_affine test whose
output sum carries its constant term last. -/
def exAffineConstLast : TreeData :=
  addT (addT (addT VarX (mulT (constant 2) VarY)) (constant 7))
       (mulT (constant 3)
         (unary .COS (unary .SIN (addT (addT VarX (mulT (constant 2) VarY)) (constant 7)))))

/-- Left operand of a binary node (used to name the inner affine sum of a
collect_affine output). -/
def lhsOf : TreeData → TreeData
  | Binary _ l _ => l
  | Unary _ c => c
  | t => t

/-- A 2D region with nonzero perpendicular coordinate. -/
def reg2 : Region 2 := Region.ofBoundsPerp (fun _ => 0) (fun _ => 1) (fun _ => 5)


/-! ## Properties of the post-order traversal -/

theorem kids_sizeOf {t c : TreeData} (h : c ∈ kids t) : sizeOf c < sizeOf t := by
  cases t with
  | Unary op c2 =>
      simp only [kids, List.mem_singleton] at h; subst h
      simp only [TreeData.Unary.sizeOf_spec]; omega
  | Binary op l r =>
      simp only [kids, List.mem_cons, List.mem_singleton, List.not_mem_nil, or_false] at h
      rcases h with rfl | rfl <;> · simp only [TreeData.Binary.sizeOf_spec]; omega
  | Remap b x y z =>
      simp only [kids, List.mem_cons, List.mem_singleton, List.not_mem_nil, or_false] at h
      rcases h with rfl | rfl | rfl | rfl <;> · simp only [TreeData.Remap.sizeOf_spec]; omega
  | ApplyConstVars b =>
      simp only [kids, List.mem_singleton] at h; subst h
      simp only [TreeData.ApplyConstVars.sizeOf_spec]; omega
  | Constant b => simp [kids] at h
  | VarX => simp [kids] at h
  | VarY => simp [kids] at h
  | VarZ => simp [kids] at h
  | VarFree i => simp [kids] at h
  | Oracle i => simp [kids] at h

theorem reach_sizeOf {t a : TreeData} (h : Reach t a) : sizeOf a ≤ sizeOf t := by
  induction h with
  | refl t => exact le_refl _
  | step hk _ ih => exact le_trans ih (le_of_lt (kids_sizeOf hk))

theorem idxOf_cons (b a : TreeData) (w : List TreeData) :
    idxOf (b :: w) a = if b = a then 0 else idxOf w a + 1 := rfl

theorem idxOf_append_left {w : List TreeData} {a : TreeData} (d : List TreeData)
    (h : a ∈ w) : idxOf (w ++ d) a = idxOf w a := by
  induction w with
  | nil => cases h
  | cons b w ih =>
      rcases List.mem_cons.mp h with rfl | h2
      · simp [List.cons_append, idxOf_cons]
      · by_cases hb : b = a
        · simp [List.cons_append, idxOf_cons, hb]
        · rw [List.cons_append, idxOf_cons, idxOf_cons, if_neg hb, if_neg hb, ih h2]

theorem idxOf_append_right {w : List TreeData} {a : TreeData} (d : List TreeData)
    (h : a ∉ w) : idxOf (w ++ d) a = w.length + idxOf d a := by
  induction w with
  | nil => simp
  | cons b w ih =>
      have hb : b ≠ a := fun hba => h (hba ▸ List.mem_cons_self b w)
      have h2 : a ∉ w := fun hw => h (List.mem_cons_of_mem _ hw)
      rw [List.cons_append, idxOf_cons, if_neg hb, ih h2, List.length_cons]
      omega

theorem idxOf_lt_length {w : List TreeData} {a : TreeData} (h : a ∈ w) :
    idxOf w a < w.length := by
  induction w with
  | nil => cases h
  | cons b w ih =>
      by_cases hb : b = a
      · simp [idxOf_cons, hb]
      · rcases List.mem_cons.mp h with rfl | h2
        · exact absurd rfl hb
        · rw [idxOf_cons, if_neg hb, List.length_cons]
          exact Nat.succ_lt_succ (ih h2)

theorem postAux_append (u : Bool) (t : TreeData) (seen : List TreeData) :
    ∃ d, postAux u t seen = seen ++ d ∧ ∀ a ∈ d, Reach t a := by
  induction t generalizing seen with
  | Unary op c ih =>
      rw [postAux]; split
      · exact ⟨[], by simp⟩
      · obtain ⟨d, hd, hr⟩ := ih seen
        refine ⟨d ++ [Unary op c], by rw [hd]; simp, ?_⟩
        intro a ha
        rcases List.mem_append.mp ha with ha | ha
        · exact Reach.step (by simp [kids]) (hr a ha)
        · rcases List.mem_singleton.mp ha with rfl; exact Reach.refl _
  | Binary op l r ihl ihr =>
      rw [postAux]; split
      · exact ⟨[], by simp⟩
      · split
        · obtain ⟨d1, hd1, hr1⟩ := ihr seen
          obtain ⟨d2, hd2, hr2⟩ := ihl (postAux u r seen)
          refine ⟨d1 ++ d2 ++ [Binary op l r], by rw [hd2, hd1]; simp, ?_⟩
          intro a ha
          rcases List.mem_append.mp ha with ha | ha
          · rcases List.mem_append.mp ha with ha | ha
            · exact Reach.step (c := r) (by simp [kids]) (hr1 a ha)
            · exact Reach.step (c := l) (by simp [kids]) (hr2 a ha)
          · rcases List.mem_singleton.mp ha with rfl; exact Reach.refl _
        · obtain ⟨d1, hd1, hr1⟩ := ihl seen
          obtain ⟨d2, hd2, hr2⟩ := ihr (postAux u l seen)
          refine ⟨d1 ++ d2 ++ [Binary op l r], by rw [hd2, hd1]; simp, ?_⟩
          intro a ha
          rcases List.mem_append.mp ha with ha | ha
          · rcases List.mem_append.mp ha with ha | ha
            · exact Reach.step (c := l) (by simp [kids]) (hr1 a ha)
            · exact Reach.step (c := r) (by simp [kids]) (hr2 a ha)
          · rcases List.mem_singleton.mp ha with rfl; exact Reach.refl _
  | Remap b x y z ihb ihx ihy ihz =>
      rw [postAux]; split
      · exact ⟨[], by simp⟩
      · obtain ⟨d1, hd1, hr1⟩ := ihb seen
        obtain ⟨d2, hd2, hr2⟩ := ihx (postAux u b seen)
        obtain ⟨d3, hd3, hr3⟩ := ihy (postAux u x (postAux u b seen))
        obtain ⟨d4, hd4, hr4⟩ := ihz (postAux u y (postAux u x (postAux u b seen)))
        refine ⟨d1 ++ d2 ++ d3 ++ d4 ++ [Remap b x y z],
          by rw [hd4, hd3, hd2, hd1]; simp, ?_⟩
        intro a ha
        rcases List.mem_append.mp ha with ha | ha
        · rcases List.mem_append.mp ha with ha | ha
          · rcases List.mem_append.mp ha with ha | ha
            · rcases List.mem_append.mp ha with ha | ha
              · exact Reach.step (c := b) (by simp [kids]) (hr1 a ha)
              · exact Reach.step (c := x) (by simp [kids]) (hr2 a ha)
            · exact Reach.step (c := y) (by simp [kids]) (hr3 a ha)
          · exact Reach.step (c := z) (by simp [kids]) (hr4 a ha)
        · rcases List.mem_singleton.mp ha with rfl; exact Reach.refl _
  | ApplyConstVars b ih =>
      rw [postAux]; split
      · exact ⟨[], by simp⟩
      · obtain ⟨d, hd, hr⟩ := ih seen
        refine ⟨d ++ [ApplyConstVars b], by rw [hd]; simp, ?_⟩
        intro a ha
        rcases List.mem_append.mp ha with ha | ha
        · exact Reach.step (by simp [kids]) (hr a ha)
        · rcases List.mem_singleton.mp ha with rfl; exact Reach.refl _
  | Constant bb =>
      rw [postAux]; split
      · exact ⟨[], by simp⟩
      · refine ⟨[Constant bb], rfl, ?_⟩
        intro a ha
        rcases List.mem_singleton.mp ha with rfl
        exact Reach.refl _
  | VarX =>
      rw [postAux]; split
      · exact ⟨[], by simp⟩
      · refine ⟨[VarX], rfl, ?_⟩
        intro a ha
        rcases List.mem_singleton.mp ha with rfl
        exact Reach.refl _
  | VarY =>
      rw [postAux]; split
      · exact ⟨[], by simp⟩
      · refine ⟨[VarY], rfl, ?_⟩
        intro a ha
        rcases List.mem_singleton.mp ha with rfl
        exact Reach.refl _
  | VarZ =>
      rw [postAux]; split
      · exact ⟨[], by simp⟩
      · refine ⟨[VarZ], rfl, ?_⟩
        intro a ha
        rcases List.mem_singleton.mp ha with rfl
        exact Reach.refl _
  | VarFree i =>
      rw [postAux]; split
      · exact ⟨[], by simp⟩
      · refine ⟨[VarFree i], rfl, ?_⟩
        intro a ha
        rcases List.mem_singleton.mp ha with rfl
        exact Reach.refl _
  | Oracle i =>
      rw [postAux]; split
      · exact ⟨[], by simp⟩
      · refine ⟨[Oracle i], rfl, ?_⟩
        intro a ha
        rcases List.mem_singleton.mp ha with rfl
        exact Reach.refl _

theorem postAux_mono {u : Bool} {t a : TreeData} {seen : List TreeData}
    (h : a ∈ seen) : a ∈ postAux u t seen := by
  obtain ⟨d, hd, -⟩ := postAux_append u t seen
  rw [hd]; exact List.mem_append_left _ h

theorem mem_postAux {u : Bool} {t a : TreeData} {seen : List TreeData}
    (h : a ∈ postAux u t seen) : a ∈ seen ∨ Reach t a := by
  obtain ⟨d, hd, hr⟩ := postAux_append u t seen
  rw [hd] at h
  rcases List.mem_append.mp h with h | h
  · exact Or.inl h
  · exact Or.inr (hr a h)

theorem postAux_self (u : Bool) (t : TreeData) (seen : List TreeData) :
    t ∈ postAux u t seen := by
  cases t
  all_goals rw [postAux]
  all_goals split
  all_goals first
    | assumption
    | (split <;> simp)
    | simp

/-- A node too large to be reachable from any child is never added by the
child traversals. -/
theorem not_mem_postAux_of_big {u : Bool} {c t : TreeData} {seen : List TreeData}
    (hs : sizeOf c < sizeOf t) (h : t ∉ seen) : t ∉ postAux u c seen := by
  intro hmem
  rcases mem_postAux hmem with hmem | hmem
  · exact h hmem
  · exact absurd (reach_sizeOf hmem) (by omega)

theorem closedIdx_reach {w : List TreeData} (hc : ClosedIdx w) {t a : TreeData}
    (ht : t ∈ w) (h : Reach t a) : a ∈ w := by
  induction h with
  | refl t => exact ht
  | step hk _ ih => exact ih ((hc _ ht _ hk).1)

theorem closedIdx_append {w : List TreeData} {t : TreeData}
    (hc : ClosedIdx w) (ht : t ∉ w) (hk : ∀ c ∈ kids t, c ∈ w) :
    ClosedIdx (w ++ [t]) := by
  intro n hn c hcn
  rcases List.mem_append.mp hn with hn | hn
  · obtain ⟨h1, h2⟩ := hc n hn c hcn
    refine ⟨List.mem_append_left _ h1, ?_⟩
    rw [idxOf_append_left _ h1, idxOf_append_left _ hn]
    exact h2
  · rcases List.mem_singleton.mp hn with rfl
    have h1 := hk c hcn
    refine ⟨List.mem_append_left _ h1, ?_⟩
    rw [idxOf_append_left _ h1, idxOf_append_right _ ht]
    have := idxOf_lt_length h1
    simp only [idxOf_cons, if_pos rfl]
    omega

/-- The main traversal invariant: starting from a duplicate-free,
child-closed prefix, the traversal stays duplicate-free and child-closed,
and the root ends up in the output. -/
theorem postAux_main (u : Bool) (t : TreeData) :
    ∀ seen : List TreeData, seen.Nodup → ClosedIdx seen →
      (postAux u t seen).Nodup ∧ ClosedIdx (postAux u t seen) := by
  induction t with
  | Unary op c ih =>
      intro seen hn hc
      rw [postAux]; split
      · exact ⟨hn, hc⟩
      · next hmem =>
        obtain ⟨hn1, hc1⟩ := ih seen hn hc
        have hbig : sizeOf c < sizeOf (Unary op c) := by
          simp only [TreeData.Unary.sizeOf_spec]; omega
        have hnot := not_mem_postAux_of_big (u := u) hbig hmem
        constructor
        · simp [List.nodup_append, hn1, hnot]
        · exact closedIdx_append hc1 hnot
            (by intro c2 hc2
                rcases List.mem_singleton.mp (by simpa [kids] using hc2) with rfl
                exact postAux_self u _ _)
  | Binary op l r ihl ihr =>
      intro seen hn hc
      rw [postAux]; split
      · exact ⟨hn, hc⟩
      · next hmem =>
        split
        · obtain ⟨hn1, hc1⟩ := ihr seen hn hc
          obtain ⟨hn2, hc2⟩ := ihl (postAux u r seen) hn1 hc1
          have hbl : sizeOf l < sizeOf (Binary op l r) := by
            simp only [TreeData.Binary.sizeOf_spec]; omega
          have hbr : sizeOf r < sizeOf (Binary op l r) := by
            simp only [TreeData.Binary.sizeOf_spec]; omega
          have hnot := not_mem_postAux_of_big (u := u) hbl
            (not_mem_postAux_of_big (u := u) hbr hmem)
          constructor
          · simp [List.nodup_append, hn2, hnot]
          · refine closedIdx_append hc2 hnot ?_
            intro c2 hc2'
            simp only [kids, List.mem_cons, List.mem_singleton, List.not_mem_nil,
              or_false] at hc2'
            rcases hc2' with rfl | rfl
            · exact postAux_self u c2 _
            · exact postAux_mono (postAux_self u c2 seen)
        · obtain ⟨hn1, hc1⟩ := ihl seen hn hc
          obtain ⟨hn2, hc2⟩ := ihr (postAux u l seen) hn1 hc1
          have hbl : sizeOf l < sizeOf (Binary op l r) := by
            simp only [TreeData.Binary.sizeOf_spec]; omega
          have hbr : sizeOf r < sizeOf (Binary op l r) := by
            simp only [TreeData.Binary.sizeOf_spec]; omega
          have hnot := not_mem_postAux_of_big (u := u) hbr
            (not_mem_postAux_of_big (u := u) hbl hmem)
          constructor
          · simp [List.nodup_append, hn2, hnot]
          · refine closedIdx_append hc2 hnot ?_
            intro c2 hc2'
            simp only [kids, List.mem_cons, List.mem_singleton, List.not_mem_nil,
              or_false] at hc2'
            rcases hc2' with rfl | rfl
            · exact postAux_mono (postAux_self u c2 seen)
            · exact postAux_self u c2 _
  | Remap b x y z ihb ihx ihy ihz =>
      intro seen hn hc
      rw [postAux]; split
      · exact ⟨hn, hc⟩
      · next hmem =>
        obtain ⟨hn1, hc1⟩ := ihb seen hn hc
        obtain ⟨hn2, hc2⟩ := ihx _ hn1 hc1
        obtain ⟨hn3, hc3⟩ := ihy _ hn2 hc2
        obtain ⟨hn4, hc4⟩ := ihz _ hn3 hc3
        have hsb : sizeOf b < sizeOf (Remap b x y z) := by
          simp only [TreeData.Remap.sizeOf_spec]; omega
        have hsx : sizeOf x < sizeOf (Remap b x y z) := by
          simp only [TreeData.Remap.sizeOf_spec]; omega
        have hsy : sizeOf y < sizeOf (Remap b x y z) := by
          simp only [TreeData.Remap.sizeOf_spec]; omega
        have hsz : sizeOf z < sizeOf (Remap b x y z) := by
          simp only [TreeData.Remap.sizeOf_spec]; omega
        have hnot := not_mem_postAux_of_big (u := u) hsz
          (not_mem_postAux_of_big (u := u) hsy
            (not_mem_postAux_of_big (u := u) hsx
              (not_mem_postAux_of_big (u := u) hsb hmem)))
        constructor
        · simp [List.nodup_append, hn4, hnot]
        · refine closedIdx_append hc4 hnot ?_
          intro c2 hc2'
          simp only [kids, List.mem_cons, List.mem_singleton, List.not_mem_nil,
            or_false] at hc2'
          rcases hc2' with rfl | rfl | rfl | rfl
          · exact postAux_mono (postAux_mono (postAux_mono (postAux_self u c2 seen)))
          · exact postAux_mono (postAux_mono (postAux_self u c2 _))
          · exact postAux_mono (postAux_self u c2 _)
          · exact postAux_self u c2 _
  | ApplyConstVars b ih =>
      intro seen hn hc
      rw [postAux]; split
      · exact ⟨hn, hc⟩
      · next hmem =>
        obtain ⟨hn1, hc1⟩ := ih seen hn hc
        have hbig : sizeOf b < sizeOf (ApplyConstVars b) := by
          simp only [TreeData.ApplyConstVars.sizeOf_spec]; omega
        have hnot := not_mem_postAux_of_big (u := u) hbig hmem
        constructor
        · simp [List.nodup_append, hn1, hnot]
        · exact closedIdx_append hc1 hnot
            (by intro c2 hc2
                rcases List.mem_singleton.mp (by simpa [kids] using hc2) with rfl
                exact postAux_self u _ _)
  | Constant bb =>
      intro seen hn hc
      rw [postAux]; split
      · exact ⟨hn, hc⟩
      · next hmem =>
        exact ⟨by simp [List.nodup_append, hn, hmem],
               closedIdx_append hc hmem (by intro c2 hc2; simp [kids] at hc2)⟩
  | VarX =>
      intro seen hn hc
      rw [postAux]; split
      · exact ⟨hn, hc⟩
      · next hmem =>
        exact ⟨by simp [List.nodup_append, hn, hmem],
               closedIdx_append hc hmem (by intro c2 hc2; simp [kids] at hc2)⟩
  | VarY =>
      intro seen hn hc
      rw [postAux]; split
      · exact ⟨hn, hc⟩
      · next hmem =>
        exact ⟨by simp [List.nodup_append, hn, hmem],
               closedIdx_append hc hmem (by intro c2 hc2; simp [kids] at hc2)⟩
  | VarZ =>
      intro seen hn hc
      rw [postAux]; split
      · exact ⟨hn, hc⟩
      · next hmem =>
        exact ⟨by simp [List.nodup_append, hn, hmem],
               closedIdx_append hc hmem (by intro c2 hc2; simp [kids] at hc2)⟩
  | VarFree i =>
      intro seen hn hc
      rw [postAux]; split
      · exact ⟨hn, hc⟩
      · next hmem =>
        exact ⟨by simp [List.nodup_append, hn, hmem],
               closedIdx_append hc hmem (by intro c2 hc2; simp [kids] at hc2)⟩
  | Oracle i =>
      intro seen hn hc
      rw [postAux]; split
      · exact ⟨hn, hc⟩
      · next hmem =>
        exact ⟨by simp [List.nodup_append, hn, hmem],
               closedIdx_append hc hmem (by intro c2 hc2; simp [kids] at hc2)⟩

theorem walk_nodup (t : TreeData) : (walk t).Nodup :=
  (postAux_main false t [] List.nodup_nil (by intro n hn; cases hn)).1

theorem walk_closedIdx (t : TreeData) : ClosedIdx (walk t) :=
  (postAux_main false t [] List.nodup_nil (by intro n hn; cases hn)).2

theorem walk_mem_iff (t a : TreeData) : a ∈ walk t ↔ Reach t a := by
  constructor
  · intro h
    rcases mem_postAux h with h | h
    · cases h
    · exact h
  · intro h
    exact closedIdx_reach (walk_closedIdx t) (postAux_self false t []) h

theorem serialOrder_nodup (t : TreeData) : (serialOrder t).Nodup :=
  (postAux_main true t [] List.nodup_nil (by intro n hn; cases hn)).1

theorem serialOrder_closedIdx (t : TreeData) : ClosedIdx (serialOrder t) :=
  (postAux_main true t [] List.nodup_nil (by intro n hn; cases hn)).2

theorem serialOrder_mem_iff (t a : TreeData) : a ∈ serialOrder t ↔ Reach t a := by
  constructor
  · intro h
    rcases mem_postAux h with h | h
    · cases h
    · exact h
  · intro h
    exact closedIdx_reach (serialOrder_closedIdx t) (postAux_self true t []) h


/-! ## Helper lemmas for the claims -/

theorem coeffOf_addEntry (m : AffMap) (a : TreeData) (c : Nat)
    (h : a ∈ m.map Prod.fst) :
    coeffOf (addEntry m a c) a = f32Add (coeffOf m a) c := by
  induction m with
  | nil => simp at h
  | cons e rest ih =>
      obtain ⟨b, cb⟩ := e
      by_cases hb : b = a
      · subst hb
        simp [addEntry, coeffOf]
      · rw [addEntry, if_neg hb, coeffOf, coeffOf, if_neg hb, if_neg hb]
        apply ih
        simp only [List.map_cons, List.mem_cons] at h
        rcases h with h | h
        · exact absurd h.symm hb
        · exact h

theorem affineEntries_keys_nonzero (m : AffMap) (c : Nat) :
    ∀ e ∈ affineEntries m c, f32IsZero e.1 = false := by
  intro e he
  rw [affineEntries] at he
  rcases List.mem_append.mp he with he | he
  · rcases List.mem_map.mp he with ⟨x, hx, rfl⟩
    have h2 := (List.mem_filter.mp hx).2
    simpa using h2
  · by_cases hz : f32IsZero c
    · rw [if_pos hz] at he; cases he
    · rw [if_neg hz] at he
      rcases List.mem_singleton.mp he with rfl
      simpa using hz

theorem mulT_one {a : TreeData} (h : a.isConst = false) :
    mulT a (Constant f32One) = a := by
  cases a with
  | Constant b => simp [isConst] at h
  | VarX => rfl
  | VarY => rfl
  | VarZ => rfl
  | VarFree i => rfl
  | Unary op c => rfl
  | Binary op l r => rfl
  | Remap b x y z => rfl
  | ApplyConstVars b => rfl
  | Oracle i => rfl

theorem buildAffine_single (a : TreeData) (h : a.isConst = false) :
    buildAffine [(a, f32One)] 0 = a := by
  have e1 : affineEntries [(a, f32One)] 0 = [(f32One, mulT a (Constant f32One))] := by
    rw [affineEntries, List.filter_cons]
    rw [if_pos (show (!f32IsZero f32One) = true by decide)]
    rw [if_pos (show f32IsZero 0 = true by decide)]
    simp [List.filter_nil]
  rw [buildAffine, e1]
  rw [show sortEntries [(f32One, mulT a (Constant f32One))] =
        [(f32One, mulT a (Constant f32One))] from by
      rw [sortEntries, sortEntries, insEntry]]
  rw [List.map_cons, List.map_nil]
  rw [show reduceBal [mulT a (Constant f32One)] = mulT a (Constant f32One) from by
      rw [reduceBal, List.length_cons, List.length_nil]; rfl]
  exact mulT_one h

theorem affineEntries_const_mem (m : AffMap) (c : Nat) (h : f32IsZero c = false) :
    (c, Constant c) ∈ affineEntries m c := by
  rw [affineEntries]
  refine List.mem_append_right _ ?_
  rw [if_neg (by rw [h]; exact Bool.false_ne_true)]
  exact List.mem_singleton.mpr rfl

theorem flatten_binary_rebuild (op : BinOp) (l r : TreeData)
    (h : hasRemap (Binary op l r) = true) :
    flatten (Binary op l r) = binary op (flatten l) (flatten r) := by
  rw [flatten, if_pos h]

theorem rcInv_reachable : ∀ s, RCReachable s → RCInv s := by
  intro s h
  induction h with
  | refl => intro n; simp [rcInit, RCInv]
  | tail _ step ih =>
      cases step with
      | makeNew h1 h2 =>
          rename_i n
          intro m
          simp only [rcMakeNew]
          by_cases hm : m = n
          · subst hm; simp [Function.update_same]
          · simp [Function.update_noteq hm, ih m]
      | makeHit h1 =>
          rename_i n
          intro m
          simp only [rcMakeHit]
          by_cases hm : m = n
          · subst hm
            simp [Function.update_same, h1, ih m]
          · simp [Function.update_noteq hm, ih m]
      | makeFresh h1 h2 =>
          rename_i n
          intro m
          simp only [rcMakeFresh]
          by_cases hm : m = n
          · subst hm; simp [Function.update_same, h2]
          · simp [Function.update_noteq hm, ih m]
      | clone h1 =>
          rename_i n
          intro m
          simp only [rcClone]
          by_cases hm : m = n
          · subst hm
            have h3 := ih m
            simp only [Function.update_same]
            omega
          · simp [Function.update_noteq hm, ih m]
      | drop h1 =>
          rename_i n
          intro m
          rw [rcDrop]
          split
          · next hlive =>
              by_cases hm : m = n
              · subst hm; simp [Function.update_same]
              · simp [Function.update_noteq hm, ih m]
          · next hlive =>
              by_cases hm : m = n
              · subst hm
                have h3 := ih m
                simp only [Function.update_same]
                omega
              · simp [Function.update_noteq hm, ih m]

/-! ## The claims -/

/-- C1: for every tree whose root is a binary operation, serialise emits
node records in a deterministic post-order walk whose back-reference
indices always point to previously emitted records (amended statement).
The claim attributed the payload order lhs-then-rhs and a MIN record with
indices (2,0) to min(X, Y + X); the byte stream asserted by the shipped
test (and by section 6 of the spec) carries the rhs index first and the
lhs index second, with the MIN record holding indices (2,1).  The first
conjunct is the general back-reference property: every child of an
emitted record is itself emitted at a strictly smaller index. -/
theorem serialise_binary_backrefs :
    (∀ t n, n ∈ serialOrder t → ∀ c, c ∈ kids n →
        c ∈ serialOrder t ∧ idxOf (serialOrder t) c < idxOf (serialOrder t) n) ∧
    serialise exSerialLocal =
      [84, 34, 34, 34, 34, opByte VarY, opByte VarX, binOpByte .ADD,
       1, 0, 0, 0, 0, 0, 0, 0, binOpByte .MIN, 2, 0, 0, 0, 1, 0, 0, 0, 255, 255] :=
  ⟨fun t => serialOrder_closedIdx t, by decide⟩

/-- C1 counterexample: in serialise(min(X, Y + X)) the MIN record is
followed by the two little-endian indices 2 and 1, and no MIN record
with indices (2,0) occurs anywhere in the stream, refuting the pair
(2,0) claimed for it. -/
theorem serialise_min_indices_cex :
    List.IsInfix [binOpByte .MIN, 2, 0, 0, 0, 1, 0, 0, 0] (serialise exSerialLocal) ∧
    ¬ List.IsInfix [binOpByte .MIN, 2, 0, 0, 0, 0, 0, 0, 0] (serialise exSerialLocal) := by
  decide

/-- C1 witness: the general back-reference property applied to the ADD
record of min(X, Y + X) and its lhs child Y. -/
theorem serialise_binary_backrefs_witness :
    VarY ∈ serialOrder exSerialLocal ∧
      idxOf (serialOrder exSerialLocal) VarY <
        idxOf (serialOrder exSerialLocal) (Binary .ADD VarY VarX) :=
  serialise_binary_backrefs.1 exSerialLocal (Binary .ADD VarY VarX) (by decide) VarY (by decide)

/-- C2: serialise(min(X, Y)) with empty metadata writes exactly the byte
sequence T quote quote quote quote VAR_X VAR_Y OP_MIN 01 00 00 00 00 00
00 00 FF FF, bit-exact (opcode byte values abstracted by the model). -/
theorem serialise_min_basic :
    serialise exMinXY =
      [84, 34, 34, 34, 34, opByte VarX, opByte VarY, binOpByte .MIN,
       1, 0, 0, 0, 0, 0, 0, 0, 255, 255] := by decide

/-- C3: flatten rebuilds non-Remap nodes through the smart constructors,
so constant folding re-applies during substitution; in particular
flatten((X + 5).remap(3, X, X)) is the single node Constant(8). -/
theorem flatten_refolds :
    flatten exFold = constant 8 ∧
    (∀ op l r, hasRemap (Binary op l r) = true →
        flatten (Binary op l r) = binary op (flatten l) (flatten r)) :=
  ⟨by decide, flatten_binary_rebuild⟩

/-- C3 witness: the rebuild equation applied to a binary node with a
pending remap in its right child. -/
theorem flatten_refolds_witness :
    flatten (Binary .ADD VarX (Remap VarY VarX VarX VarX)) =
      binary .ADD (flatten VarX) (flatten (Remap VarY VarX VarX VarX)) :=
  flatten_refolds.2 .ADD VarX (Remap VarY VarX VarX VarX) (by decide)

/-- C4: remap(b, x, y, z) returns the Remap wrapper itself, without
traversing or rebuilding the body, and flattening the wrapper produces
the substituted graph substAxes(flatten b, ...) while b, an immutable
value, is untouched; the axis leaves are replaced by the corresponding
flattened handles. -/
theorem remap_is_lazy_wrapper :
    ∀ b x y z : TreeData,
      remap b x y z = Remap b x y z ∧
      flatten (remap b x y z) =
        substAxes (flatten b) (flatten x) (flatten y) (flatten z) ∧
      substAxes VarX x y z = x ∧ substAxes VarY x y z = y ∧ substAxes VarZ x y z = z :=
  fun _ _ _ _ => ⟨rfl, rfl, rfl, rfl, rfl⟩

/-- C5: walk(root) is a finite deterministic post-order sequence of the
distinct reachable records: no duplicates, membership is exactly
reachability, and every child of a listed record appears at a strictly
smaller index.  The two concrete walks are the trees of the shipped walk
tests; the second shares X between the two min operands and lists it only
at its first (leftmost) occurrence. -/
theorem walk_postorder_unique :
    (∀ root : TreeData,
        (walk root).Nodup ∧
        (∀ a, a ∈ walk root ↔ Reach root a) ∧
        (∀ n, n ∈ walk root → ∀ c, c ∈ kids n →
            c ∈ walk root ∧ idxOf (walk root) c < idxOf (walk root) n)) ∧
    walk exWalkFull =
      [VarX, VarY, Binary .MIN VarX VarY, VarZ, Constant (f32OfInt 1),
       Binary .MIN VarZ (Constant (f32OfInt 1)),
       Binary .MIN (Binary .MIN VarX VarY) (Binary .MIN VarZ (Constant (f32OfInt 1)))] ∧
    walk exWalkShared =
      [VarX, VarY, Binary .MIN VarX VarY, VarZ, Binary .MIN VarZ VarX,
       Binary .MIN (Binary .MIN VarX VarY) (Binary .MIN VarZ VarX)] :=
  ⟨fun root => ⟨walk_nodup root, walk_mem_iff root,
      fun n hn c hc => walk_closedIdx root n hn c hc⟩,
   by decide, by decide⟩

/-- C5 witness: the child-before-parent property applied to min(X, Y)
inside the fully-branching walk. -/
theorem walk_postorder_unique_witness :
    VarX ∈ walk exWalkFull ∧
      idxOf (walk exWalkFull) VarX < idxOf (walk exWalkFull) (Binary .MIN VarX VarY) :=
  (walk_postorder_unique.1 exWalkFull).2.2 (Binary .MIN VarX VarY) (by decide) VarX (by decide)

/-- C6: collect_affine merges atoms of identical handle identity by
adding their coefficients (the accumulator adds into an existing entry),
drops zero coefficients (every emitted term carries a nonzero key), and
reduces a single coefficient-1 atom with zero constant to the atom
itself; in particular (2X + Y) + (2X + Y) prints as
(+ (* y 2) (* x 4)). -/
theorem collect_affine_merges :
    sexp (collect_affine exAffineMerge) = "(+ (* y 2) (* x 4))" ∧
    (∀ (m : AffMap) (a : TreeData) (c : Nat), a ∈ m.map Prod.fst →
        coeffOf (addEntry m a c) a = f32Add (coeffOf m a) c) ∧
    (∀ (m : AffMap) (c : Nat), ∀ e ∈ affineEntries m c, f32IsZero e.1 = false) ∧
    (∀ a : TreeData, a.isConst = false → buildAffine [(a, f32One)] 0 = a) :=
  ⟨by decide, coeffOf_addEntry, affineEntries_keys_nonzero, buildAffine_single⟩

/-- C6 witness: coefficient addition, the nonzero-key property, and the
single-atom reduction, each at a concrete input. -/
theorem collect_affine_merges_witness :
    coeffOf (addEntry [(VarX, f32One)] VarX f32One) VarX =
      f32Add (coeffOf [(VarX, f32One)] VarX) f32One ∧
    f32IsZero (((f32One, Constant f32One) : Nat × TreeData)).1 = false ∧
    buildAffine [(VarY, f32One)] 0 = VarY :=
  ⟨collect_affine_merges.2.1 [(VarX, f32One)] VarX f32One (by decide),
   collect_affine_merges.2.2.1 [] f32One (f32One, Constant f32One) (by decide),
   collect_affine_merges.2.2.2 VarY (by decide)⟩

/-- C7 counterexample: in collect_affine(max(Z - 10, -Z)) the left max
operand is the affine sum (+ -10 z): its nonzero bare constant -10 is the
first of the printed operands and its last operand is z, so the constant
is not emitted last. -/
theorem collect_affine_const_first_cex :
    lhsOf (collect_affine exAffineMax) = Binary .ADD (Constant (f32OfInt (-10))) VarZ ∧
    f32IsZero (f32OfInt (-10)) = false ∧
    chainArgs .ADD (lhsOf (collect_affine exAffineMax)) =
      [Constant (f32OfInt (-10)), VarZ] ∧
    (chainArgs .ADD (lhsOf (collect_affine exAffineMax))).getLast? ≠
      some (Constant (f32OfInt (-10))) := by decide

/-- C7 (amended): a nonzero constant term is always emitted as one term
of the affine sum, placed with the other terms in ascending key order,
each atom keyed by its coefficient and the constant by its own value; it
is therefore last exactly when its value exceeds every coefficient.  In
max(Z - 10, -Z) the constant -10 comes first; in
(X + 2Y + 7) + 3 cos(sin(X + 2Y + 7)) the constant 7 exceeds the
coefficients 1, 2, 3 and comes last. -/
theorem collect_affine_const_position :
    sexp (collect_affine exAffineMax) = "(max (+ -10 z) (- z))" ∧
    sexp (collect_affine exAffineConstLast) =
      "(+ x (* y 2) (* (cos (sin (+ x (* y 2) 7))) 3) 7)" ∧
    (∀ (m : AffMap) (c : Nat), f32IsZero c = false → (c, Constant c) ∈ affineEntries m c) :=
  ⟨by decide, by decide, affineEntries_const_mem⟩

/-- C7 witness: the constant-term emission applied at the constant 7. -/
theorem collect_affine_const_position_witness :
    ((f32OfInt 7, Constant (f32OfInt 7)) : Nat × TreeData) ∈
      affineEntries [] (f32OfInt 7) :=
  collect_affine_const_position.2.2 [] (f32OfInt 7) (by decide)

/-- C8: two Constant records coincide exactly when their raw bit patterns
do: equal-bit NaN constants deduplicate to a single record (the NAN tree
keeps 4 unique nodes), constants with different bit patterns stay
distinct (5 nodes with the constant 1), and +0 and -0, as well as NaNs
with different payloads, are different records. -/
theorem constant_bit_identity :
    (∀ a b : Nat, (Constant a = Constant b) ↔ a = b) ∧
    size (uniqueT (addT (mulT (Constant f32QNan) VarX) (Constant f32QNan))) = 4 ∧
    size (uniqueT (addT (mulT (Constant f32QNan) VarX) (constant 1))) = 5 ∧
    Constant (f32OfInt 0) ≠ Constant (f32Neg (f32OfInt 0)) ∧
    Constant f32QNan ≠ Constant (f32QNan + 1) :=
  ⟨fun a b => ⟨fun h => by injection h, fun h => h ▸ rfl⟩,
   by decide, by decide, by decide, by decide⟩

/-- C9: along every execution of the handle and table operations the
stored reference count of every record equals its number of live handles
plus one count for the hash-cons key while the record is tabled; the
first interned handle to a singleton observes count 2, a second handle
observes 3, and a single handle to an un-interned var observes 1. -/
theorem refcount_invariant :
    (∀ s, RCReachable s → RCInv s) ∧
    (rcMakeNew 0 rcInit).refcount 0 = 2 ∧
    (rcMakeHit 0 (rcMakeNew 0 rcInit)).refcount 0 = 3 ∧
    (rcDrop 0 (rcMakeHit 0 (rcMakeNew 0 rcInit))).refcount 0 = 2 ∧
    (rcMakeFresh 1 rcInit).refcount 1 = 1 :=
  ⟨rcInv_reachable, rfl, rfl, rfl, rfl⟩

/-- C9 witness: the invariant applied to the state reached by interning a
record and handing out a second handle. -/
theorem refcount_invariant_witness :
    RCInv (rcMakeHit 0 (rcMakeNew 0 rcInit)) :=
  refcount_invariant.1 _
    (Relation.ReflTransGen.tail
      (Relation.ReflTransGen.single (RCStep.makeNew rfl rfl))
      (RCStep.makeHit rfl))

/-- C10: Region subdivide always returns 2 to the N regions, and every
subregion is built with the two-argument constructor, which carries over
only the bounds and resets perp to 0; the perpendicular coordinates of
the parent are not inherited. -/
theorem region_subdivide_resets_perp :
    (∀ (N : Nat) (r : Region N), (Region.subdivide r).length = 2 ^ N) ∧
    (∀ (N : Nat) (r s : Region N), s ∈ Region.subdivide r → ∀ j, s.perp j = 0) := by
  constructor
  · intro N r; simp [Region.subdivide]
  · intro N r s hs j
    rw [Region.subdivide] at hs
    rcases List.mem_map.mp hs with ⟨i, hi, rfl⟩
    rfl

/-- C10 witness: the first subregion of a 2D region with perpendicular
coordinate 5 has perpendicular coordinate 0. -/
theorem region_subdivide_resets_perp_witness :
    ((Region.subdivide reg2).get ⟨0, by simp [Region.subdivide]⟩).perp ⟨0, by omega⟩ = 0 :=
  region_subdivide_resets_perp.2 2 reg2 _ (List.get_mem _ _ _) ⟨0, by omega⟩

end Libfive
